import Mathlib

/-!
Verification of the leak-analysis module (scalene/leak_analysis.py).

The module works on "count vectors": Python lists of floats in which an
entry is either a real value or NaN (the "missing" marker).  We model such
an entry as `Option ℝ` with `none` standing for NaN, and exact real
arithmetic standing for float arithmetic.  Fallible operations (Python
`assert`, `ZeroDivisionError`) are modelled with `Except PyError`.

The Monte-Carlo sampling (`numpy.random.Generator.multinomial`) is modelled
by an explicit sampling oracle passed to the functions: `sample n m trials`
stands for the list of `trials` sampled vectors that the generator returns
for total count `n` spread over `m` categories.
-/

open scoped Classical

namespace LeakAnalysis

/-- Python run-time failures that the module can raise. -/
inductive PyError where
  | assertionError : PyError
  | zeroDivisionError : PyError
deriving DecidableEq

/-- The module's `log`: `if x == 0: return 0 else: return math.log(x)`. -/
noncomputable def pylog (x : ℝ) : ℝ := if x = 0 then 0 else Real.log x

/-- Python `int()` applied to a float: truncation toward zero. -/
noncomputable def pyint (x : ℝ) : ℤ := if 0 ≤ x then ⌊x⌋ else ⌈x⌉

/-- `xform(i, n) = i / n * log(i / n)`; NaN input propagates to NaN output. -/
noncomputable def xform (i : Option ℝ) (n : ℝ) : Option ℝ :=
  Option.map (fun x => x / n * pylog (x / n)) i

/-- `np.nansum`: sum of the non-missing entries. -/
noncomputable def nansum (v : List (Option ℝ)) : ℝ := (v.filterMap id).sum

/-- Python builtin `sum` over a list of floats: starts from 0 and any NaN
entry makes the whole sum NaN. -/
noncomputable def nanSum (l : List (Option ℝ)) : Option ℝ :=
  l.foldl (fun acc x =>
    match acc, x with
    | some a, some b => some (a + b)
    | _, _ => none) (some 0)

/-- Python `<=` on floats: False whenever either side is NaN. -/
def pyLE : Option ℝ → Option ℝ → Prop
  | some x, some y => x ≤ y
  | _, _ => False

/-- Python `==` on floats: False whenever either side is NaN. -/
def pyEq : Option ℝ → Option ℝ → Prop
  | some x, some y => x = y
  | _, _ => False

/-- `normalized_entropy(v)`:
`assert len(v) > 0; if len(v) == 1: return 1;
 n = int(np.nansum(v)); assert n > 0;
 h = -sum([xform(i, n) for i in v]); return h / math.log(len(v))`.
The comprehension runs over every entry (NaN included), so a NaN entry
makes `h`, and hence the result, NaN. -/
noncomputable def normalized_entropy (v : List (Option ℝ)) : Except PyError (Option ℝ) :=
  if 0 < v.length then
    if v.length = 1 then .ok (some 1)
    else
      let n : ℤ := pyint (nansum v)
      if 0 < n then
        .ok (Option.map (fun s => -s / Real.log (v.length : ℝ))
              (nanSum (v.map (fun i => xform i (n : ℝ)))))
      else .error .assertionError
  else .error .assertionError

/-- A sampling oracle standing for `rng.multinomial`:
`sample n m trials` is the list of sampled vectors returned for total
count `n`, `m` categories and `trials` repetitions. -/
def SampleOracle : Type := ℝ → ℕ → ℕ → List (List ℝ)

/-- `sum(normalized_entropy(v) <= ne for v in sampled_vec)`: counts the
sampled vectors whose entropy is `<=` the observed one; an entropy failure
on any sampled vector propagates. -/
noncomputable def countLEM (ne : Option ℝ) : List (List ℝ) → Except PyError ℕ
  | [] => .ok 0
  | v :: rest =>
    match normalized_entropy (v.map some) with
    | .error e => .error e
    | .ok ev =>
      match countLEM ne rest with
      | .error e => .error e
      | .ok c => .ok ((if pyLE ev ne then 1 else 0) + c)

/-- `multinomial_pvalue(vec, trials=2000)`. -/
noncomputable def multinomial_pvalue (sample : SampleOracle) (vec : List (Option ℝ))
    (trials : ℕ) : Except PyError ℝ :=
  let n := nansum vec
  let newvec := vec.filterMap id
  let m := newvec.length
  match normalized_entropy (newvec.map some) with
  | .error e => .error e
  | .ok ne =>
    let sampled_vec := sample n m trials
    match countLEM ne sampled_vec with
    | .error e => .error e
    | .ok cnt =>
      if trials = 0 then .error .zeroDivisionError
      else .ok ((cnt : ℝ) / (trials : ℝ))

/-- Maximum of a nonempty list of reals (`0` as junk value for `[]`). -/
noncomputable def listMax : List ℝ → ℝ
  | [] => 0
  | x :: xs => xs.foldl max x

/-- `np.nanmax`: maximum over the non-missing entries; NaN when every entry
is missing (`np.nanmax` raises on an empty list, which is unreachable from
`outliers`; we model that case as NaN too). -/
noncomputable def nanmax (vec : List (Option ℝ)) : Option ℝ :=
  match vec.filterMap id with
  | [] => none
  | _ :: _ => some (listMax (vec.filterMap id))

/-- Index of the first entry `==` the target (Python float equality, so a
NaN entry never matches). -/
noncomputable def findEqIdx (target : Option ℝ) : List (Option ℝ) → Option ℕ
  | [] => none
  | x :: rest => if pyEq x target then some 0 else Option.map (· + 1) (findEqIdx target rest)

/-- `argmax(vec)`: first index whose value `==` `np.nanmax(vec)`, with the
(unreachable in valid runs) fallback `return 0`. -/
noncomputable def argmax (vec : List (Option ℝ)) : ℕ :=
  match findEqIdx (nanmax vec) vec with
  | some i => i
  | none => 0

/-- The Euler–Mascheroni literal from the source. -/
noncomputable def gammaConst : ℝ := 0.57721566490153286060651209008240243104215933593992

/-- `harmonic_number(n)`: for `n < 100` the sum `1/d` for `d` in
`range(2, n + 1)` (98 terms for n = 99, note the sum starts at `d = 2`);
for `n >= 100` the asymptotic expansion. -/
noncomputable def harmonic_number (n : ℕ) : ℝ :=
  if n < 100 then ((List.range' 2 (n - 1)).map (fun d : ℕ => 1 / (d : ℝ))).sum
  else gammaConst + Real.log (n : ℝ) + 0.5 / (n : ℝ)
        - 1.0 / (12 * (n : ℝ) ^ 2) + 1.0 / (120 * (n : ℝ) ^ 4)

/-- The `while` loop of `outliers`, with fuel (the loop performs at most
`m` removals since each iteration needs `removed < m` and increments
`removed`; `outliers` passes `m` as fuel).  The threshold division is
evaluated on every condition check and raises when `m * c_m` is zero,
exactly as the Python expression does. -/
noncomputable def outliersLoop (sample : ℕ → SampleOracle) (alpha : ℝ) (m : ℕ) (c_m : ℝ) :
    ℕ → List (Option ℝ) → ℕ → List (ℕ × ℝ) → ℝ → Except PyError (List (ℕ × ℝ))
  | 0, _, _, results, _ =>
    if (m : ℝ) * c_m = 0 then .error .zeroDivisionError else .ok results
  | fuel + 1, vec, removed, results, pv =>
    if (m : ℝ) * c_m = 0 then .error .zeroDivisionError
    else if pv ≤ alpha * ((removed : ℝ) + 1) / ((m : ℝ) * c_m) ∧ removed < m then
      let max_index := argmax vec
      let results1 := results ++ [(max_index, pv)]
      let vec1 := vec.set max_index none
      let removed1 := removed + 1
      if removed1 < m then
        match multinomial_pvalue (sample removed1) vec1 2000 with
        | .error e => .error e
        | .ok pv1 => outliersLoop sample alpha m c_m fuel vec1 removed1 results1 pv1
      else outliersLoop sample alpha m c_m fuel vec1 removed1 results1 pv
    else .ok results

/-- `outliers(vec, alpha=0.01, trials=3000)`.  The first p-value uses the
caller-supplied `trials`; recomputations inside the loop use the default
trial count 2000 of `multinomial_pvalue`.  The sampling oracle is indexed
by the current value of `removed` so every test draws fresh randomness. -/
noncomputable def outliers (sample : ℕ → SampleOracle) (vec : List (Option ℝ))
    (alpha : ℝ) (trials : ℕ) : Except PyError (List (ℕ × ℝ)) :=
  let m := vec.length
  match multinomial_pvalue (sample 0) vec trials with
  | .error e => .error e
  | .ok pv =>
    let c_m := harmonic_number m
    outliersLoop sample alpha m c_m m vec 0 [] pv

/-- Specification-side entropy, following the spec's words for claim C2:
`n` is the exact (untruncated) sum of the non-missing entries, the entropy
sum ranges over the non-missing entries only, and the normalizer is
`ln m` with `m` the number of non-missing entries. -/
noncomputable def normalized_entropy_spec (v : List (Option ℝ)) : ℝ :=
  let nm := v.filterMap id
  let n := nm.sum
  (-((nm.map (fun i => i / n * pylog (i / n))).sum)) / Real.log (nm.length : ℝ)

/-- Pure value of `normalized_entropy` on a vector with no missing
entries (mirrors the code, truncated sum included). -/
noncomputable def entropyVal (v : List ℝ) : ℝ :=
  if v.length = 1 then 1
  else -((v.map (fun i => i / (pyint v.sum : ℝ) * pylog (i / (pyint v.sum : ℝ)))).sum)
        / Real.log (v.length : ℝ)

/-- Number of sampled vectors whose entropy is at most `ne`. -/
noncomputable def entropyLEcount (samples : List (List ℝ)) (ne : ℝ) : ℕ :=
  samples.countP (fun v => decide (entropyVal v ≤ ne))

/-- Concrete sampling oracle used to exhibit a complete successful run of
`outliers` on the vector `[1, 0]`. -/
def sampleW : ℕ → SampleOracle := fun k _ _ _ => if k = 0 then [[1, 1]] else [[0]]


/-! ### Basic lemmas about the embedded primitives -/

lemma nanSum_foldl_some (l : List ℝ) (a : ℝ) :
    (l.map some).foldl (fun acc x =>
      match acc, x with
      | some a, some b => some (a + b)
      | _, _ => none) (some a) = some (a + l.sum) := by
  induction l generalizing a with
  | nil => simp
  | cons x xs ih => simp [ih, add_assoc]

lemma nanSum_map_some (l : List ℝ) : nanSum (l.map some) = some l.sum := by
  unfold nanSum
  rw [nanSum_foldl_some, zero_add]

lemma filterMap_id_map_some (l : List ℝ) : (l.map some).filterMap id = l := by
  rw [List.filterMap_map]
  exact List.filterMap_some l

lemma nansum_map_some (l : List ℝ) : nansum (l.map some) = l.sum := by
  rw [nansum, filterMap_id_map_some]

lemma pyint_natCast (k : ℕ) : pyint (k : ℝ) = (k : ℤ) := by
  rw [pyint, if_pos (Nat.cast_nonneg k), Int.floor_natCast]

lemma pyint_nonpos {x : ℝ} (hx : x ≤ 0) : pyint x ≤ 0 := by
  rw [pyint]
  rcases eq_or_lt_of_le hx with h | h
  · rw [h]; simp
  · rw [if_neg (by linarith)]
    exact Int.ceil_le.mpr (by simpa using hx)

/-- Pure evaluation of `normalized_entropy` on a vector with no missing
entries: succeeds and returns `entropyVal` when the asserts pass. -/
lemma normalized_entropy_map_some (v : List ℝ) (h1 : v ≠ [])
    (h2 : v.length ≠ 1 → 0 < pyint v.sum) :
    normalized_entropy (v.map some) = .ok (some (entropyVal v)) := by
  have hlen0 : 0 < (v.map some).length := by
    simpa [List.length_map] using List.length_pos.mpr h1
  by_cases hone : v.length = 1
  · rw [normalized_entropy, if_pos hlen0, if_pos (by simpa [List.length_map] using hone)]
    rw [entropyVal, if_pos hone]
  · rw [normalized_entropy, if_pos hlen0, if_neg (by simpa [List.length_map] using hone)]
    rw [nansum_map_some]
    rw [if_pos (h2 hone)]
    rw [entropyVal, if_neg hone]
    have hmap : (v.map some).map (fun i => xform i ((pyint v.sum : ℤ) : ℝ)) =
        (v.map (fun x => x / ((pyint v.sum : ℤ) : ℝ) *
          pylog (x / ((pyint v.sum : ℤ) : ℝ)))).map some := by
      simp [xform, List.map_map]
    rw [hmap, nanSum_map_some]
    simp [List.length_map]

/-- A successful `multinomial_pvalue` implies at least one non-missing
entry (otherwise `normalized_entropy` is called on the empty reduced
vector and its length assert fails). -/
lemma multinomial_pvalue_ok_nonempty {sample : SampleOracle} {vec : List (Option ℝ)}
    {trials : ℕ} {p : ℝ} (h : multinomial_pvalue sample vec trials = .ok p) :
    vec.filterMap id ≠ [] := by
  intro hemp
  rw [multinomial_pvalue] at h
  rw [hemp] at h
  simp [normalized_entropy] at h

/-! ### Entropy bounds for integer count vectors (Gibbs inequality) -/

lemma sum_map_div (l : List ℝ) (c : ℝ) : (l.map (fun x => x / c)).sum = l.sum / c := by
  induction l with
  | nil => simp
  | cons x xs ih => simp [ih, add_div]

lemma sum_map_sub {α : Type} (l : List α) (f g : α → ℝ) :
    (l.map (fun x => f x - g x)).sum = (l.map f).sum - (l.map g).sum := by
  induction l with
  | nil => simp
  | cons x xs ih => simp [ih]; ring

lemma sum_map_const {α : Type} (l : List α) (c : ℝ) :
    (l.map (fun _ => c)).sum = l.length * c := by
  induction l with
  | nil => simp
  | cons x xs ih => simp [ih]; ring

lemma pylog_nonpos {p : ℝ} (h0 : 0 ≤ p) (h1 : p ≤ 1) : pylog p ≤ 0 := by
  rw [pylog]
  by_cases hz : p = 0
  · simp [hz]
  · rw [if_neg hz]
    exact Real.log_nonpos h0 h1

/-- Pointwise Gibbs bound: for `0 ≤ p` and `0 < m`,
`-(p log p) - p log m ≤ 1/m - p` (with the module's `log 0 = 0`). -/
lemma gibbs_term {p m : ℝ} (hp : 0 ≤ p) (hm : 0 < m) :
    -(p * pylog p) - p * Real.log m ≤ 1 / m - p := by
  rcases eq_or_lt_of_le hp with h | h
  · rw [← h]
    simp
    positivity
  · rw [pylog, if_neg (ne_of_gt h)]
    have hpm : 0 < p * m := mul_pos h hm
    have hlog : Real.log ((p * m)⁻¹) ≤ (p * m)⁻¹ - 1 :=
      Real.log_le_sub_one_of_pos (by positivity)
    rw [Real.log_inv, Real.log_mul (ne_of_gt h) (ne_of_gt hm)] at hlog
    have hmul := mul_le_mul_of_nonneg_left hlog hp
    have hfix : p * (p * m)⁻¹ = 1 / m := by
      field_simp
    nlinarith [hmul, hfix]

/-- Entropy of an integer count vector with positive total lies in `[0, 1]`. -/
lemma entropyVal_unit (ks : List ℕ) (hne : ks ≠ []) (hsum : 0 < ks.sum) :
    0 ≤ entropyVal (ks.map (fun k : ℕ => (k : ℝ))) ∧
      entropyVal (ks.map (fun k : ℕ => (k : ℝ))) ≤ 1 := by
  set vals : List ℝ := ks.map (fun k : ℕ => (k : ℝ)) with hvals
  have hvsum : vals.sum = (ks.sum : ℝ) := by
    rw [hvals]
    exact (Nat.cast_list_sum ks).symm
  have hpy : pyint vals.sum = (ks.sum : ℤ) := by
    rw [hvsum, pyint_natCast]
  by_cases hone : vals.length = 1
  · rw [entropyVal, if_pos hone]
    norm_num
  · rw [entropyVal, if_neg hone]
    set N : ℝ := ((pyint vals.sum : ℤ) : ℝ) with hN
    have hNval : N = (ks.sum : ℝ) := by rw [hN, hpy]; exact Int.cast_natCast ks.sum
    have hNpos : 0 < N := by rw [hNval]; exact_mod_cast hsum
    have hlen0 : vals.length ≠ 0 := by
      rw [hvals]
      simpa [List.length_map] using (fun h => hne (List.length_eq_zero.mp h))
    have hlen2 : 2 ≤ vals.length := by omega
    have hL1 : (1 : ℝ) < (vals.length : ℝ) := by exact_mod_cast hlen2
    have hlogL : 0 < Real.log (vals.length : ℝ) := Real.log_pos hL1
    have hprob : ∀ i ∈ vals, 0 ≤ i / N ∧ i / N ≤ 1 := by
      intro i hi
      rw [hvals] at hi
      obtain ⟨k, hk, rfl⟩ := List.mem_map.mp hi
      constructor
      · exact div_nonneg (Nat.cast_nonneg k) (le_of_lt hNpos)
      · rw [div_le_one hNpos, hNval]
        exact_mod_cast List.single_le_sum (fun x _ => Nat.zero_le x) k hk
    have hterm_nonpos : ∀ i ∈ vals, i / N * pylog (i / N) ≤ 0 := by
      intro i hi
      obtain ⟨h0, h1⟩ := hprob i hi
      exact mul_nonpos_of_nonneg_of_nonpos h0 (pylog_nonpos h0 h1)
    have hsum_nonpos : ((vals.map (fun i => i / N * pylog (i / N))).sum) ≤ 0 := by
      have := List.sum_le_sum (l := vals) (f := fun i => i / N * pylog (i / N))
        (g := fun _ => (0 : ℝ)) (fun i hi => hterm_nonpos i hi)
      simpa [sum_map_const] using this
    have hprobsum : (vals.map (fun i => i / N)).sum = 1 := by
      rw [sum_map_div, hvsum, hNval]
      exact div_self (ne_of_gt (by exact_mod_cast hsum))
    constructor
    · exact div_nonneg (by linarith) (le_of_lt hlogL)
    · rw [div_le_one hlogL]
      have hpoint : ∀ i ∈ vals,
          -(i / N * pylog (i / N)) - (i / N) * Real.log (vals.length : ℝ) ≤
            1 / (vals.length : ℝ) - i / N := by
        intro i hi
        exact gibbs_term (hprob i hi).1 (by linarith)
      have hsums := List.sum_le_sum (l := vals)
        (f := fun i => -(i / N * pylog (i / N)) - (i / N) * Real.log (vals.length : ℝ))
        (g := fun i => 1 / (vals.length : ℝ) - i / N) hpoint
      rw [sum_map_sub, sum_map_sub] at hsums
      have e1 : (vals.map (fun i => -(i / N * pylog (i / N)))).sum =
          -((vals.map (fun i => i / N * pylog (i / N))).sum) := by
        generalize vals = l
        induction l with
        | nil => simp
        | cons x xs ih =>
          simp only [List.map_cons, List.sum_cons, ih]
          ring
      have e2 : (vals.map (fun i => (i / N) * Real.log (vals.length : ℝ))).sum =
          (vals.map (fun i => i / N)).sum * Real.log (vals.length : ℝ) :=
        List.sum_map_mul_right vals (fun i => i / N) _
      have e3 : (vals.map (fun _ => 1 / (vals.length : ℝ))).sum = 1 := by
        rw [sum_map_const]
        have hz : (vals.length : ℝ) ≠ 0 := by linarith
        field_simp
      rw [e1, e2, e3, hprobsum] at hsums
      linarith [hsums]

lemma exists_nat_list {v : List (Option ℝ)} (h : ∀ x ∈ v, ∃ k : ℕ, x = some ((k : ℕ) : ℝ)) :
    ∃ ks : List ℕ, v = ks.map (fun k : ℕ => some ((k : ℕ) : ℝ)) := by
  induction v with
  | nil => exact ⟨[], rfl⟩
  | cons x xs ih =>
    obtain ⟨k, rfl⟩ := h x (by simp)
    obtain ⟨ks, hks⟩ := ih (fun y hy => h y (by simp [hy]))
    exact ⟨k :: ks, by rw [List.map_cons, hks]⟩

/-- C7 (counterexample): on the vector `[1.5, 0]` of non-negative reals with
positive sum, `normalized_entropy` returns a strictly negative value, because
`int()` truncates the total mass `1.5` down to `1` and the resulting
pseudo-probabilities sum to more than one. -/
theorem normalized_entropy_neg_on_fractional :
    normalized_entropy [some (3/2 : ℝ), some 0] =
      .ok (some (-(3/2 * Real.log (3/2)) / Real.log 2)) ∧
    -(3/2 * Real.log (3/2)) / Real.log 2 < 0 := by
  constructor
  · have hsum : nansum [some (3/2 : ℝ), some 0] = 3/2 := by
      simp [nansum]
    have hint : pyint (3/2 : ℝ) = 1 := by
      rw [pyint, if_pos (by norm_num), Int.floor_eq_iff]
      norm_num
    rw [normalized_entropy]
    rw [if_pos (by norm_num), if_neg (by norm_num)]
    rw [hsum, hint, if_pos (by norm_num)]
    have hlog32 : pylog ((3/2 : ℝ)/1) = Real.log (3/2) := by
      rw [pylog, if_neg (by norm_num)]
      norm_num
    have hlog0 : pylog ((0 : ℝ)/1) = 0 := by
      rw [pylog, if_pos (by norm_num)]
    simp only [List.map_cons, List.map_nil, xform, Option.map_some', Int.cast_one, nanSum,
      List.foldl_cons, List.foldl_nil]
    rw [hlog32, hlog0]
    norm_num
  · apply div_neg_of_neg_of_pos
    · have hl : 0 < Real.log (3/2) := Real.log_pos (by norm_num)
      nlinarith [hl]
    · exact Real.log_pos (by norm_num)

/-- C7 (amended): for every nonempty vector of non-negative INTEGER counts
with no missing entries and positive total, `normalized_entropy` succeeds
and returns a value in `[0, 1]`. -/
theorem normalized_entropy_unit_interval (v : List (Option ℝ))
    (hnat : ∀ x ∈ v, ∃ k : ℕ, x = some ((k : ℕ) : ℝ))
    (hne : v ≠ []) (hsum : 0 < nansum v) :
    normalized_entropy v = .ok (some (entropyVal (v.filterMap id)))
    ∧ 0 ≤ entropyVal (v.filterMap id) ∧ entropyVal (v.filterMap id) ≤ 1 := by
  obtain ⟨ks, rfl⟩ := exists_nat_list hnat
  set vals : List ℝ := ks.map (fun k : ℕ => (k : ℝ)) with hvals
  have hshape : (ks.map (fun k : ℕ => some ((k : ℕ) : ℝ))) = vals.map some := by
    rw [hvals, List.map_map]
    rfl
  have hfm : (ks.map (fun k : ℕ => some ((k : ℕ) : ℝ))).filterMap id = vals := by
    rw [hshape, filterMap_id_map_some]
  have hvsum : vals.sum = (ks.sum : ℝ) := by
    rw [hvals]
    exact (Nat.cast_list_sum ks).symm
  have hksum : 0 < ks.sum := by
    have h2 : nansum (ks.map (fun k : ℕ => some ((k : ℕ) : ℝ))) = vals.sum := by
      simp only [nansum]
      rw [hfm]
    rw [h2, hvsum] at hsum
    exact_mod_cast hsum
  have hkne : ks ≠ [] := by
    intro hk
    exact hne (by rw [hk]; rfl)
  have hvne : vals ≠ [] := by
    rw [hvals]
    intro hv
    exact hkne (List.map_eq_nil_iff.mp hv)
  have heval : normalized_entropy (ks.map (fun k : ℕ => some ((k : ℕ) : ℝ))) =
      .ok (some (entropyVal vals)) := by
    rw [hshape]
    apply normalized_entropy_map_some vals hvne
    intro _
    rw [hvsum, pyint_natCast]
    exact_mod_cast hksum
  rw [hfm, heval]
  exact ⟨rfl, (entropyVal_unit ks hkne hksum).1, (entropyVal_unit ks hkne hksum).2⟩

/-- C2 (counterexample): on `[NaN, 1, 1]` the claimed formula (over the
non-missing entries) yields `h / ln m = ln 2 / ln 2 = 1`, but the code
returns NaN: the entropy comprehension runs over the missing entry as well,
so the sum — and the result — is NaN, not `h / ln m`. -/
theorem normalized_entropy_missing_counterexample :
    normalized_entropy [none, some (1 : ℝ), some 1] = .ok none ∧
    normalized_entropy_spec [none, some (1 : ℝ), some 1] = 1 := by
  constructor
  · have hs : nansum [none, some (1 : ℝ), some 1] = 2 := by
      simp [nansum]
      norm_num
    have hint : pyint (2 : ℝ) = 2 := by
      rw [show (2 : ℝ) = ((2 : ℕ) : ℝ) by norm_num, pyint_natCast]
      rfl
    rw [normalized_entropy, if_pos (by norm_num), if_neg (by norm_num), hs, hint,
      if_pos (by norm_num)]
    simp [nanSum, xform]
  · have h2 : Real.log 2 ≠ 0 := ne_of_gt (Real.log_pos (by norm_num))
    have hhalf : pylog ((1 : ℝ) / (1 + 1)) = -Real.log 2 := by
      rw [pylog, if_neg (by norm_num)]
      rw [show ((1 : ℝ) / (1 + 1)) = 2⁻¹ by norm_num, Real.log_inv]
    simp only [normalized_entropy_spec, List.filterMap_cons, List.filterMap_nil, id]
    simp only [List.sum_cons, List.sum_nil, List.map_cons, List.map_nil, List.length_cons,
      List.length_nil]
    rw [show ((1 : ℝ) / (1 + (1 + 0))) = (1 : ℝ) / (1 + 1) by norm_num] at *
    simp only [hhalf]
    norm_num
    field_simp

/-- C2 (amended): for vectors of non-negative integer counts with NO
missing entries, length at least 2 and positive total, the code agrees with
the spec formula (there the truncated total equals the exact total, the
entropy sum over all entries equals the sum over non-missing entries, and
`len(v)` equals the non-missing count `m`). -/
theorem normalized_entropy_matches_spec (v : List (Option ℝ))
    (hnat : ∀ x ∈ v, ∃ k : ℕ, x = some ((k : ℕ) : ℝ))
    (hlen : 2 ≤ v.length) (hsum : 0 < nansum v) :
    normalized_entropy v = .ok (some (normalized_entropy_spec v)) := by
  obtain ⟨ks, rfl⟩ := exists_nat_list hnat
  set vals : List ℝ := ks.map (fun k : ℕ => (k : ℝ)) with hvals
  have hshape : (ks.map (fun k : ℕ => some ((k : ℕ) : ℝ))) = vals.map some := by
    rw [hvals, List.map_map]
    rfl
  have hfm : (vals.map some).filterMap id = vals := filterMap_id_map_some vals
  have hvsum : vals.sum = (ks.sum : ℝ) := by
    rw [hvals]
    exact (Nat.cast_list_sum ks).symm
  have hksum : 0 < ks.sum := by
    have h2 : nansum (ks.map (fun k : ℕ => some ((k : ℕ) : ℝ))) = vals.sum := by
      simp only [nansum]
      rw [hshape, hfm]
    rw [h2, hvsum] at hsum
    exact_mod_cast hsum
  have hlen2 : 2 ≤ vals.length := by
    rw [hvals, List.length_map]
    simpa [List.length_map] using hlen
  have hvne : vals ≠ [] := by
    intro hv
    rw [hv] at hlen2
    simp at hlen2
  have heval := normalized_entropy_map_some vals hvne (fun _ => by
    rw [hvsum, pyint_natCast]
    exact_mod_cast hksum)
  rw [hshape, heval]
  have hNeq : ((pyint vals.sum : ℤ) : ℝ) = vals.sum := by
    rw [hvsum, pyint_natCast]
    exact Int.cast_natCast ks.sum
  have hone : vals.length ≠ 1 := by omega
  simp only [normalized_entropy_spec, hfm, entropyVal, if_neg hone, hNeq]

@[simp] lemma pyLE_some_some (x y : ℝ) : pyLE (some x) (some y) = (x ≤ y) := rfl

@[simp] lemma pyEq_some_some (x y : ℝ) : pyEq (some x) (some y) = (x = y) := rfl

@[simp] lemma pyEq_none_left (y : Option ℝ) : pyEq none y = False := by
  cases y <;> rfl

@[simp] lemma pyEq_some_none (x : ℝ) : pyEq (some x) none = False := rfl

@[simp] lemma countLEM_nil (ne : Option ℝ) : countLEM ne [] = .ok 0 := rfl

/-- `normalized_entropy` on a singleton list returns 1 without checking the
total mass. -/
lemma normalized_entropy_singleton (x : ℝ) :
    normalized_entropy [some x] = .ok (some 1) := by
  rw [normalized_entropy, if_pos (by norm_num), if_pos (by norm_num)]

/-- The entropy failure on a reduced vector with non-positive truncated
mass and length different from 1. -/
lemma normalized_entropy_nonpos_mass (nv : List ℝ)
    (hmass : nv.sum ≤ 0) (hm : nv.length ≠ 1) :
    normalized_entropy (nv.map some) = .error .assertionError := by
  rcases List.eq_nil_or_concat nv with hnil | _
  · rw [hnil]
    rw [normalized_entropy]
    norm_num
  · by_cases hnil : nv = []
    · rw [hnil, normalized_entropy]
      norm_num
    · have hpos : 0 < (nv.map some).length := by
        simpa [List.length_map] using List.length_pos.mpr hnil
      rw [normalized_entropy, if_pos hpos,
        if_neg (by simpa [List.length_map] using hm)]
      rw [nansum_map_some]
      rw [if_neg (by simpa using pyint_nonpos hmass)]

/-- C5 (counterexample): on the vector `[0.0]` — total mass 0 — the
p-value computation does NOT fail: the reduced vector has a single entry,
`normalized_entropy` takes the length-1 early return that bypasses the
`n > 0` assert, and (with the sampler returning `[[0]]` as
`rng.multinomial(0, [1.0], 1)` does) the call returns 1.0. -/
theorem multinomial_pvalue_zero_mass_ok :
    nansum [some (0 : ℝ)] ≤ 0 ∧
    multinomial_pvalue (fun _ _ _ => [[0]]) [some (0 : ℝ)] 1 = .ok 1 := by
  constructor
  · simp [nansum]
  · have h1 : normalized_entropy [some (0 : ℝ)] = .ok (some 1) :=
      normalized_entropy_singleton 0
    have hfm : ([some (0 : ℝ)].filterMap id) = [0] := by simp
    rw [multinomial_pvalue]
    rw [hfm]
    simp only [List.map_cons, List.map_nil, h1]
    rw [show countLEM (some (1 : ℝ)) [[0]] = .ok 1 from by
      rw [countLEM]
      simp only [List.map_cons, List.map_nil, h1, countLEM_nil]
      rw [if_pos (by simp)]]
    norm_num

/-- C5 (amended): for every vector with total mass at most 0 whose number
of non-missing entries is not exactly 1, `multinomial_pvalue` fails fast
with an assertion failure, and so does `outliers` (in particular on
`[0, 0]`).  A single non-missing entry escapes through the length-1 early
return of `normalized_entropy`. -/
theorem multinomial_pvalue_fails_nonpos_mass (sample : SampleOracle)
    (osample : ℕ → SampleOracle) (vec : List (Option ℝ)) (trials : ℕ) (alpha : ℝ)
    (hmass : nansum vec ≤ 0) (hm : (vec.filterMap id).length ≠ 1) :
    multinomial_pvalue sample vec trials = .error .assertionError ∧
    outliers osample vec alpha trials = .error .assertionError := by
  have herr : ∀ s : SampleOracle,
      multinomial_pvalue s vec trials = .error .assertionError := by
    intro s
    have hne : normalized_entropy ((vec.filterMap id).map some) = .error .assertionError :=
      normalized_entropy_nonpos_mass (vec.filterMap id) (by simpa [nansum] using hmass) hm
    rw [multinomial_pvalue, hne]
  refine ⟨herr sample, ?_⟩
  rw [outliers, herr (osample 0)]

/-- C6 (counterexample): the vector `[0.3, 0.3]` has positive total mass
and two non-missing entries — a valid input in the claim's sense — yet
`multinomial_pvalue` raises an assertion failure instead of returning a
p-value, because `int()` truncates the mass `0.6` to `0`. -/
theorem multinomial_pvalue_fractional_counterexample :
    0 < nansum [some (3/10 : ℝ), some (3/10)] ∧
    [some (3/10 : ℝ), some (3/10)].filterMap id ≠ [] ∧
    multinomial_pvalue (fun _ _ _ => []) [some (3/10 : ℝ), some (3/10)] 5 =
      .error .assertionError := by
  refine ⟨by simp [nansum], by simp, ?_⟩
  have hfm : ([some (3/10 : ℝ), some (3/10)].filterMap id) = [3/10, 3/10] := by simp
  have hint : pyint ((3/10 : ℝ) + (3/10 + 0)) = 0 := by
    rw [pyint, if_pos (by norm_num), Int.floor_eq_iff]
    norm_num
  have hne : normalized_entropy ([(3/10 : ℝ), 3/10].map some) = .error .assertionError := by
    rw [normalized_entropy, if_pos (by norm_num), if_neg (by norm_num)]
    rw [nansum_map_some]
    simp only [List.sum_cons, List.sum_nil]
    rw [hint]
    norm_num
  rw [multinomial_pvalue, hfm, hne]

lemma countLEM_eval (ne : ℝ) (samples : List (List ℝ))
    (hval : ∀ v ∈ samples, v ≠ [] ∧ (v.length ≠ 1 → 0 < pyint v.sum)) :
    countLEM (some ne) samples = .ok (entropyLEcount samples ne) := by
  induction samples with
  | nil => rw [countLEM_nil]; rw [entropyLEcount, List.countP_nil]
  | cons v rest ih =>
    obtain ⟨hv1, hv2⟩ := hval v (by simp)
    simp only [countLEM, normalized_entropy_map_some v hv1 hv2,
      ih (fun w hw => hval w (by simp [hw])), entropyLEcount, List.countP_cons,
      pyLE_some_some, decide_eq_true_eq]
    rw [Nat.add_comm]

lemma exists_nat_list_filterMap {v : List (Option ℝ)}
    (h : ∀ x ∈ v, x = none ∨ ∃ k : ℕ, x = some ((k : ℕ) : ℝ)) :
    ∃ ks : List ℕ, v.filterMap id = ks.map (fun k : ℕ => (k : ℝ)) := by
  induction v with
  | nil => exact ⟨[], rfl⟩
  | cons x xs ih =>
    obtain ⟨ks, hks⟩ := ih (fun y hy => h y (by simp [hy]))
    rcases h x (by simp) with hx | ⟨k, hx⟩
    · exact ⟨ks, by simp [hx, hks]⟩
    · exact ⟨k :: ks, by simp [hx, hks]⟩

/-- C6 (amended): for an integer-valued count vector with positive total
mass and any sampling outcome of the right shape (`trials` vectors of `m`
categories, each with the original total), `multinomial_pvalue` returns
exactly (number of sampled vectors with entropy at most the observed
entropy) / trials, a value in `[0, 1]`. -/
theorem multinomial_pvalue_count_spec (sample : SampleOracle) (vec : List (Option ℝ))
    (trials : ℕ)
    (hnat : ∀ x ∈ vec, x = none ∨ ∃ k : ℕ, x = some ((k : ℕ) : ℝ))
    (hpos : 0 < nansum vec) (htr : 0 < trials)
    (hlen : (sample (nansum vec) (vec.filterMap id).length trials).length = trials)
    (heach : ∀ v ∈ sample (nansum vec) (vec.filterMap id).length trials,
      v.length = (vec.filterMap id).length ∧ v.sum = nansum vec) :
    multinomial_pvalue sample vec trials =
      .ok (((entropyLEcount (sample (nansum vec) (vec.filterMap id).length trials)
              (entropyVal (vec.filterMap id)) : ℕ) : ℝ) / (trials : ℝ)) ∧
    0 ≤ (((entropyLEcount (sample (nansum vec) (vec.filterMap id).length trials)
              (entropyVal (vec.filterMap id)) : ℕ) : ℝ) / (trials : ℝ)) ∧
    (((entropyLEcount (sample (nansum vec) (vec.filterMap id).length trials)
              (entropyVal (vec.filterMap id)) : ℕ) : ℝ) / (trials : ℝ)) ≤ 1 := by
  obtain ⟨ks, hks⟩ := exists_nat_list_filterMap hnat
  have hsum_nv : (vec.filterMap id).sum = (ks.sum : ℝ) := by
    rw [hks]
    exact (Nat.cast_list_sum ks).symm
  have hnansum : nansum vec = (ks.sum : ℝ) := by
    rw [nansum, hsum_nv]
  have hkpos : 0 < ks.sum := by
    rw [hnansum] at hpos
    exact_mod_cast hpos
  have hnvne : vec.filterMap id ≠ [] := by
    intro hemp
    rw [hemp] at hsum_nv
    have h0 : (ks.sum : ℝ) = 0 := by simpa using hsum_nv.symm
    have h0n : ks.sum = 0 := by exact_mod_cast h0
    omega
  have hobs : normalized_entropy ((vec.filterMap id).map some) =
      .ok (some (entropyVal (vec.filterMap id))) := by
    apply normalized_entropy_map_some _ hnvne
    intro _
    rw [hsum_nv, pyint_natCast]
    exact_mod_cast hkpos
  have hcnt : countLEM (some (entropyVal (vec.filterMap id)))
      (sample (nansum vec) (vec.filterMap id).length trials) =
      .ok (entropyLEcount (sample (nansum vec) (vec.filterMap id).length trials)
            (entropyVal (vec.filterMap id))) := by
    apply countLEM_eval
    intro v hv
    obtain ⟨hvl, hvs⟩ := heach v hv
    constructor
    · intro hveq
      rw [hveq] at hvl
      simp only [List.length_nil] at hvl
      exact hnvne (List.length_eq_zero.mp hvl.symm)
    · intro _
      rw [hvs, hnansum, pyint_natCast]
      exact_mod_cast hkpos
  have hmain : multinomial_pvalue sample vec trials =
      .ok (((entropyLEcount (sample (nansum vec) (vec.filterMap id).length trials)
              (entropyVal (vec.filterMap id)) : ℕ) : ℝ) / (trials : ℝ)) := by
    simp only [multinomial_pvalue, hobs, hcnt]
    rw [if_neg (Nat.pos_iff_ne_zero.mp htr)]
  refine ⟨hmain, ?_, ?_⟩
  · exact div_nonneg (Nat.cast_nonneg _) (Nat.cast_nonneg _)
  · rw [div_le_one (by exact_mod_cast htr)]
    have h1 : entropyLEcount (sample (nansum vec) (vec.filterMap id).length trials)
        (entropyVal (vec.filterMap id)) ≤
        (sample (nansum vec) (vec.filterMap id).length trials).length :=
      List.countP_le_length _
    rw [hlen] at h1
    exact_mod_cast h1

/-- Witness for C2's amended theorem at the concrete vector `[2, 1]`. -/
theorem normalized_entropy_matches_spec_witness :
    normalized_entropy [some (2 : ℝ), some 1] =
      .ok (some (normalized_entropy_spec [some (2 : ℝ), some 1])) :=
  normalized_entropy_matches_spec [some (2 : ℝ), some 1]
    (by
      intro x hx
      simp only [List.mem_cons, List.not_mem_nil, or_false] at hx
      rcases hx with hx | hx
      · exact ⟨2, by rw [hx]; norm_num⟩
      · exact ⟨1, by rw [hx]; norm_num⟩)
    (by norm_num)
    (by simp [nansum]; norm_num)

/-- Witness for C5's amended theorem at the concrete vector `[0, 0]`. -/
theorem multinomial_pvalue_fails_nonpos_mass_witness :
    multinomial_pvalue (fun _ _ _ => []) [some (0 : ℝ), some 0] 7 =
      .error .assertionError ∧
    outliers (fun _ _ _ _ => []) [some (0 : ℝ), some 0] (1/100) 7 =
      .error .assertionError :=
  multinomial_pvalue_fails_nonpos_mass (fun _ _ _ => []) (fun _ _ _ _ => [])
    [some (0 : ℝ), some 0] 7 (1/100)
    (by simp [nansum])
    (by simp)

/-- Witness for C6's amended theorem at the vector `[1, 1]` with one trial
whose sampled vector is `[2, 0]`. -/
theorem multinomial_pvalue_count_spec_witness :
    multinomial_pvalue (fun _ _ _ => [[2, 0]]) [some (1 : ℝ), some 1] 1 =
      .ok (((entropyLEcount ((fun _ _ _ => [[2, 0]]) (nansum [some (1 : ℝ), some 1])
              ([some (1 : ℝ), some 1].filterMap id).length 1)
              (entropyVal ([some (1 : ℝ), some 1].filterMap id)) : ℕ) : ℝ) / ((1 : ℕ) : ℝ)) ∧
    0 ≤ (((entropyLEcount ((fun _ _ _ => [[2, 0]]) (nansum [some (1 : ℝ), some 1])
              ([some (1 : ℝ), some 1].filterMap id).length 1)
              (entropyVal ([some (1 : ℝ), some 1].filterMap id)) : ℕ) : ℝ) / ((1 : ℕ) : ℝ)) ∧
    (((entropyLEcount ((fun _ _ _ => [[2, 0]]) (nansum [some (1 : ℝ), some 1])
              ([some (1 : ℝ), some 1].filterMap id).length 1)
              (entropyVal ([some (1 : ℝ), some 1].filterMap id)) : ℕ) : ℝ) / ((1 : ℕ) : ℝ)) ≤ 1 :=
  multinomial_pvalue_count_spec (fun _ _ _ => [[2, 0]]) [some (1 : ℝ), some 1] 1
    (by
      intro x hx
      simp only [List.mem_cons, List.not_mem_nil, or_false] at hx
      rcases hx with hx | hx
      · exact Or.inr ⟨1, by rw [hx]; norm_num⟩
      · exact Or.inr ⟨1, by rw [hx]; norm_num⟩)
    (by simp [nansum])
    (by norm_num)
    (by simp)
    (by
      intro v hv
      simp only [List.mem_cons, List.not_mem_nil, or_false] at hv
      rw [hv]
      constructor
      · simp
      · simp [nansum]; norm_num)

/-- Witness for C7's amended theorem at the concrete vector `[1, 1]`. -/
theorem normalized_entropy_unit_interval_witness :
    normalized_entropy [some (1 : ℝ), some 1] =
      .ok (some (entropyVal ([some (1 : ℝ), some 1].filterMap id))) ∧
    0 ≤ entropyVal ([some (1 : ℝ), some 1].filterMap id) ∧
    entropyVal ([some (1 : ℝ), some 1].filterMap id) ≤ 1 :=
  normalized_entropy_unit_interval [some (1 : ℝ), some 1]
    (by
      intro x hx
      simp only [List.mem_cons, List.not_mem_nil, or_false] at hx
      rcases hx with hx | hx
      · exact ⟨1, by rw [hx]; norm_num⟩
      · exact ⟨1, by rw [hx]; norm_num⟩)
    (by simp)
    (by simp [nansum])

/-! ### argmax: first index achieving the non-missing maximum -/

lemma foldl_max_mem (xs : List ℝ) (x : ℝ) : xs.foldl max x ∈ x :: xs := by
  induction xs generalizing x with
  | nil => simp
  | cons y ys ih =>
    have h := ih (max x y)
    rcases List.mem_cons.mp h with h1 | h1
    · rcases max_choice x y with hc | hc
      · rw [List.foldl_cons, h1, hc]
        simp
      · rw [List.foldl_cons, h1, hc]
        simp
    · rw [List.foldl_cons]
      right
      right
      exact h1

lemma le_foldl_max (xs : List ℝ) (x : ℝ) :
    x ≤ xs.foldl max x ∧ ∀ y ∈ xs, y ≤ xs.foldl max x := by
  induction xs generalizing x with
  | nil => simp
  | cons z zs ih =>
    obtain ⟨ih1, ih2⟩ := ih (max x z)
    refine ⟨le_trans (le_max_left x z) ih1, ?_⟩
    intro y hy
    rcases List.mem_cons.mp hy with h1 | h1
    · rw [List.foldl_cons, h1]
      exact le_trans (le_max_right x z) ih1
    · rw [List.foldl_cons]
      exact ih2 y h1

lemma listMax_mem {l : List ℝ} (h : l ≠ []) : listMax l ∈ l := by
  cases l with
  | nil => exact absurd rfl h
  | cons x xs => exact foldl_max_mem xs x

lemma le_listMax {l : List ℝ} (y : ℝ) (hy : y ∈ l) : y ≤ listMax l := by
  cases l with
  | nil => simp at hy
  | cons x xs =>
    rcases List.mem_cons.mp hy with h1 | h1
    · rw [h1, listMax]
      exact (le_foldl_max xs x).1
    · rw [listMax]
      exact (le_foldl_max xs x).2 y h1

lemma nanmax_eq (vec : List (Option ℝ)) (hne : vec.filterMap id ≠ []) :
    nanmax vec = some (listMax (vec.filterMap id)) := by
  unfold nanmax
  split
  · next heq => exact absurd heq hne
  · next => rfl

lemma findEqIdx_spec (target : ℝ) (l : List (Option ℝ)) (hmem : some target ∈ l) :
    ∃ i, findEqIdx (some target) l = some i ∧ i < l.length ∧
      l.get? i = some (some target) ∧ ∀ j < i, l.get? j ≠ some (some target) := by
  induction l with
  | nil => simp at hmem
  | cons x rest ih =>
    by_cases hx : pyEq x (some target)
    · have hxeq : x = some target := by
        cases x with
        | none => simp [pyEq] at hx
        | some y =>
          rw [pyEq_some_some] at hx
          rw [hx]
      refine ⟨0, ?_, by simp, by simp [hxeq], by omega⟩
      rw [findEqIdx, if_pos hx]
    · have hxne : x ≠ some target := by
        intro hxeq
        rw [hxeq] at hx
        simp at hx
      have hmem2 : some target ∈ rest := by
        rcases List.mem_cons.mp hmem with h1 | h1
        · exact absurd h1.symm hxne
        · exact h1
      obtain ⟨i, hfind, hlt, hget, hfirst⟩ := ih hmem2
      refine ⟨i + 1, ?_, by simpa using hlt, by simpa using hget, ?_⟩
      · rw [findEqIdx, if_neg hx, hfind]
        rfl
      · intro j hj
        cases j with
        | zero =>
          simp only [List.get?_cons_zero]
          intro hcon
          exact hxne (Option.some_injective _ hcon)
        | succ j0 =>
          simp only [List.get?_cons_succ]
          exact hfirst j0 (by omega)

/-- `argmax` picks the first index holding the non-missing maximum
(helper form shared by the loop proofs). -/
lemma argmax_spec (vec : List (Option ℝ)) (hne : vec.filterMap id ≠ []) :
    argmax vec < vec.length ∧
    vec.get? (argmax vec) = some (some (listMax (vec.filterMap id))) ∧
    (∀ j < argmax vec, vec.get? j ≠ some (some (listMax (vec.filterMap id)))) ∧
    (∀ y ∈ vec.filterMap id, y ≤ listMax (vec.filterMap id)) := by
  have hmemf : listMax (vec.filterMap id) ∈ vec.filterMap id := listMax_mem hne
  have hmem : some (listMax (vec.filterMap id)) ∈ vec := by
    obtain ⟨x, hx, hxe⟩ := List.mem_filterMap.mp hmemf
    rw [show x = some (listMax (vec.filterMap id)) from hxe] at hx
    exact hx
  obtain ⟨i, hfind, hlt, hget, hfirst⟩ := findEqIdx_spec (listMax (vec.filterMap id)) vec hmem
  have hargmax : argmax vec = i := by
    rw [argmax, nanmax_eq vec hne, hfind]
  rw [hargmax]
  exact ⟨hlt, hget, hfirst, fun y hy => le_listMax y hy⟩

/-- C9: `argmax` returns the smallest index whose value equals the maximum
over the non-missing entries (first occurrence wins), and that maximum
dominates every non-missing entry. -/
theorem argmax_first_max (vec : List (Option ℝ)) (hne : vec.filterMap id ≠ []) :
    argmax vec < vec.length ∧
    vec.get? (argmax vec) = some (some (listMax (vec.filterMap id))) ∧
    (∀ j < argmax vec, vec.get? j ≠ some (some (listMax (vec.filterMap id)))) ∧
    (∀ y ∈ vec.filterMap id, y ≤ listMax (vec.filterMap id)) :=
  argmax_spec vec hne

/-- Witness for C9 at the vector `[1, 2, 2]` (ties on the maximum 2). -/
theorem argmax_first_max_witness :
    argmax [some (1 : ℝ), some 2, some 2] < 3 ∧
    [some (1 : ℝ), some 2, some 2].get? (argmax [some (1 : ℝ), some 2, some 2]) =
      some (some (listMax ([some (1 : ℝ), some 2, some 2].filterMap id))) :=
  ⟨(argmax_first_max [some (1 : ℝ), some 2, some 2] (by simp)).1,
   (argmax_first_max [some (1 : ℝ), some 2, some 2] (by simp)).2.1⟩

/-! ### The length-1 division by zero (C10) -/

lemma countLEM_all_singleton (ne : Option ℝ) (samples : List (List ℝ))
    (h : ∀ v ∈ samples, v.length = 1) :
    ∃ c, countLEM ne samples = .ok c := by
  induction samples with
  | nil => exact ⟨0, rfl⟩
  | cons v rest ih =>
    obtain ⟨c, hc⟩ := ih (fun w hw => h w (by simp [hw]))
    obtain ⟨a, ha⟩ := List.length_eq_one.mp (h v (by simp))
    refine ⟨(if pyLE (some 1) ne then 1 else 0) + c, ?_⟩
    rw [countLEM, ha]
    rw [show ([a].map some) = [some a] from rfl, normalized_entropy_singleton a, hc]

lemma outliersLoop_zero_cm (sample : ℕ → SampleOracle) (alpha : ℝ) (m : ℕ) (c_m : ℝ)
    (fuel : ℕ) (vec : List (Option ℝ)) (removed : ℕ) (results : List (ℕ × ℝ)) (pv : ℝ)
    (h : (m : ℝ) * c_m = 0) :
    outliersLoop sample alpha m c_m fuel vec removed results pv = .error .zeroDivisionError := by
  cases fuel with
  | zero => rw [outliersLoop, if_pos h]
  | succ fuel0 => rw [outliersLoop, if_pos h]

lemma harmonic_number_one : harmonic_number 1 = 0 := by
  rw [harmonic_number, if_pos (by norm_num)]
  rfl

/-- C10: on a vector of length 1 with a positive entry the first loop
condition of `outliers` divides by `m * c_m = 1 * harmonic_number(1) = 0`
and the call fails with a division-by-zero error (the hypotheses on the
oracle state that the sampler returns length-1 vectors, as
`rng.multinomial` does for one category). -/
theorem outliers_singleton_zero_division (sample : ℕ → SampleOracle) (x alpha : ℝ)
    (trials : ℕ) (hx : 0 < x) (htr : 0 < trials)
    (hs : ∀ v ∈ sample 0 (nansum [some x]) 1 trials, v.length = 1) :
    outliers sample [some x] alpha trials = .error .zeroDivisionError := by
  obtain ⟨c, hc⟩ := countLEM_all_singleton (some 1) _ hs
  have hfm : ([some x].filterMap id) = [x] := by simp
  have hmp : multinomial_pvalue (sample 0) [some x] trials = .ok ((c : ℝ) / (trials : ℝ)) := by
    simp only [multinomial_pvalue, hfm, List.map_cons, List.map_nil,
      normalized_entropy_singleton x, List.length_cons, List.length_nil, Nat.zero_add, hc]
    rw [if_neg (Nat.pos_iff_ne_zero.mp htr)]
  rw [outliers, hmp]
  exact outliersLoop_zero_cm _ _ _ _ _ _ _ _ _
    (by rw [show ([some x].length) = 1 from rfl, harmonic_number_one]; ring)

/-- Witness for C10 at the concrete vector `[5.0]`. -/
theorem outliers_singleton_zero_division_witness :
    outliers (fun _ _ _ _ => [[5]]) [some (5 : ℝ)] (1/100) 1 = .error .zeroDivisionError :=
  outliers_singleton_zero_division (fun _ _ _ _ => [[5]]) 5 (1/100) 1 (by norm_num)
    (by norm_num)
    (by
      intro v hv
      simp only [List.mem_cons, List.not_mem_nil, or_false] at hv
      rw [hv]
      rfl)

/-! ### Which trial counts the sampler is consulted with (C4) -/

lemma multinomial_pvalue_congr (s s' : SampleOracle) (vec : List (Option ℝ)) (trials : ℕ)
    (h : s (nansum vec) (vec.filterMap id).length trials =
         s' (nansum vec) (vec.filterMap id).length trials) :
    multinomial_pvalue s vec trials = multinomial_pvalue s' vec trials := by
  simp only [multinomial_pvalue]
  rw [h]

lemma outliersLoop_congr (sample sample' : ℕ → SampleOracle) (alpha : ℝ) (m : ℕ) (c_m : ℝ)
    (hrest : ∀ k, 1 ≤ k → ∀ n mm, sample k n mm 2000 = sample' k n mm 2000) :
    ∀ fuel vec removed results pv,
      outliersLoop sample alpha m c_m fuel vec removed results pv =
      outliersLoop sample' alpha m c_m fuel vec removed results pv := by
  intro fuel
  induction fuel with
  | zero =>
    intro vec removed results pv
    rw [outliersLoop, outliersLoop]
  | succ fuel0 ih =>
    intro vec removed results pv
    simp only [outliersLoop]
    by_cases hden : (m : ℝ) * c_m = 0
    · rw [if_pos hden, if_pos hden]
    · rw [if_neg hden, if_neg hden]
      by_cases hcond : pv ≤ alpha * ((removed : ℝ) + 1) / ((m : ℝ) * c_m) ∧ removed < m
      · rw [if_pos hcond, if_pos hcond]
        by_cases hrem : removed + 1 < m
        · rw [if_pos hrem, if_pos hrem]
          rw [multinomial_pvalue_congr (sample (removed + 1)) (sample' (removed + 1))
            (vec.set (argmax vec) none) 2000 (hrest (removed + 1) (by omega) _ _)]
          cases multinomial_pvalue (sample' (removed + 1)) (vec.set (argmax vec) none) 2000 with
          | error e => rfl
          | ok pv1 => exact ih _ _ _ _
        · rw [if_neg hrem, if_neg hrem]
          exact ih _ _ _ _
      · rw [if_neg hcond, if_neg hcond]

/-- C4: the run of `outliers` consults the randomness source only through
(a) the initial test, sampled with the CALLER-SUPPLIED `trials`, and
(b) the re-tests after each removal, sampled with the Tester's default
2000 regardless of `trials`: two oracles agreeing at exactly those points
yield identical runs. -/
theorem outliers_trials_asymmetry (sample sample' : ℕ → SampleOracle)
    (vec : List (Option ℝ)) (alpha : ℝ) (trials : ℕ)
    (h0 : ∀ n m, sample 0 n m trials = sample' 0 n m trials)
    (hrest : ∀ k, 1 ≤ k → ∀ n m, sample k n m 2000 = sample' k n m 2000) :
    outliers sample vec alpha trials = outliers sample' vec alpha trials := by
  unfold outliers
  rw [multinomial_pvalue_congr (sample 0) (sample' 0) vec trials (h0 _ _)]
  cases multinomial_pvalue (sample' 0) vec trials with
  | error e => rfl
  | ok pv => exact outliersLoop_congr sample sample' alpha _ _ hrest _ _ _ _ _

/-- Witness for C4: a run with `trials = 3` cannot tell apart two oracles
that differ only at re-test points queried with a non-default trial count. -/
theorem outliers_trials_asymmetry_witness :
    outliers (fun _ _ _ _ => []) [some (1 : ℝ)] (1/2) 3 =
      outliers (fun k _ _ t => if k = 0 ∨ t = 2000 then [] else [[9]])
        [some (1 : ℝ)] (1/2) 3 :=
  outliers_trials_asymmetry _ _ _ _ _
    (fun n m => by simp)
    (fun k hk n m => by simp)

/-! ### The FDR threshold invariant of the removal loop (C1) -/

lemma outliersLoop_threshold (sample : ℕ → SampleOracle) (alpha : ℝ) (m : ℕ) (c_m : ℝ) :
    ∀ fuel vec removed results pv final,
      outliersLoop sample alpha m c_m fuel vec removed results pv = .ok final →
      results.length = removed →
      (∀ k (hk : k < results.length),
        (results.get ⟨k, hk⟩).2 ≤ alpha * ((k : ℝ) + 1) / ((m : ℝ) * c_m)) →
      ∀ k (hk : k < final.length),
        (final.get ⟨k, hk⟩).2 ≤ alpha * ((k : ℝ) + 1) / ((m : ℝ) * c_m) := by
  intro fuel
  induction fuel with
  | zero =>
    intro vec removed results pv final hok hlen hinv
    rw [outliersLoop] at hok
    by_cases hden : (m : ℝ) * c_m = 0
    · rw [if_pos hden] at hok
      simp at hok
    · rw [if_neg hden] at hok
      injection hok with h
      subst h
      exact hinv
  | succ fuel0 ih =>
    intro vec removed results pv final hok hlen hinv
    simp only [outliersLoop] at hok
    by_cases hden : (m : ℝ) * c_m = 0
    · rw [if_pos hden] at hok
      simp at hok
    · rw [if_neg hden] at hok
      by_cases hcond : pv ≤ alpha * ((removed : ℝ) + 1) / ((m : ℝ) * c_m) ∧ removed < m
      · rw [if_pos hcond] at hok
        have hlen1 : (results ++ [(argmax vec, pv)]).length = removed + 1 := by
          simp [hlen]
        have hinv1 : ∀ k (hk : k < (results ++ [(argmax vec, pv)]).length),
            ((results ++ [(argmax vec, pv)]).get ⟨k, hk⟩).2 ≤
              alpha * ((k : ℝ) + 1) / ((m : ℝ) * c_m) := by
          intro k hk
          rcases Nat.lt_or_ge k results.length with h | h
          · rw [List.get_eq_getElem, List.getElem_append_left h]
            exact hinv k h
          · have hkr : k = removed := by
              rw [List.length_append, List.length_singleton, hlen] at hk
              omega
            rw [List.get_eq_getElem,
              List.getElem_concat_length results (argmax vec, pv) k (by omega)]
            rw [hkr]
            exact hcond.1
        by_cases hrem : removed + 1 < m
        · rw [if_pos hrem] at hok
          cases hmp : multinomial_pvalue (sample (removed + 1)) (vec.set (argmax vec) none) 2000 with
          | error e =>
            simp only [hmp] at hok
            exact absurd hok (by simp)
          | ok pv1 =>
            simp only [hmp] at hok
            exact ih _ _ _ _ _ hok hlen1 hinv1
        · rw [if_neg hrem] at hok
          exact ih _ _ _ _ _ hok hlen1 hinv1
      · rw [if_neg hcond] at hok
        injection hok with h
        subst h
        exact hinv

/-- C1: in every successful run of `outliers`, a removal happens exactly
under the loop condition `pv <= alpha*(removed+1)/(m*c_m) and removed < m`
with `m` fixed at the original length; consequently the k-th returned
record (0-based) carries a p-value at most
`alpha * (k+1) / (m * harmonic_number m)`. -/
theorem outliers_fdr_threshold (sample : ℕ → SampleOracle) (vec : List (Option ℝ))
    (alpha : ℝ) (trials : ℕ) (results : List (ℕ × ℝ))
    (h : outliers sample vec alpha trials = .ok results) :
    ∀ k (hk : k < results.length),
      (results.get ⟨k, hk⟩).2 ≤
        alpha * ((k : ℝ) + 1) / ((vec.length : ℝ) * harmonic_number vec.length) := by
  simp only [outliers] at h
  cases hmp : multinomial_pvalue (sample 0) vec trials with
  | error e =>
    simp only [hmp] at h
    exact absurd h (by simp)
  | ok pv =>
    simp only [hmp] at h
    exact outliersLoop_threshold sample alpha vec.length (harmonic_number vec.length)
      vec.length vec 0 [] pv results h rfl (by intro k hk; simp at hk)

/-! ### Distinctness of removed indices and the length bound (C8) -/

lemma outliersLoop_nodup (sample : ℕ → SampleOracle) (alpha : ℝ) (m : ℕ) (c_m : ℝ) :
    ∀ fuel vec removed results pv final,
      outliersLoop sample alpha m c_m fuel vec removed results pv = .ok final →
      (∀ p ∈ results.map Prod.fst, p < vec.length ∧ vec.get? p = some none) →
      (results.map Prod.fst).Nodup →
      (vec.filterMap id = [] → m ≤ removed) →
      (final.map Prod.fst).Nodup ∧ final.length ≤ results.length + (m - removed) := by
  intro fuel
  induction fuel with
  | zero =>
    intro vec removed results pv final hok hmiss hnd hemp
    rw [outliersLoop] at hok
    by_cases hden : (m : ℝ) * c_m = 0
    · rw [if_pos hden] at hok
      simp at hok
    · rw [if_neg hden] at hok
      injection hok with h
      subst h
      exact ⟨hnd, Nat.le_add_right _ _⟩
  | succ fuel0 ih =>
    intro vec removed results pv final hok hmiss hnd hemp
    simp only [outliersLoop] at hok
    by_cases hden : (m : ℝ) * c_m = 0
    · rw [if_pos hden] at hok
      simp at hok
    · rw [if_neg hden] at hok
      by_cases hcond : pv ≤ alpha * ((removed : ℝ) + 1) / ((m : ℝ) * c_m) ∧ removed < m
      · rw [if_pos hcond] at hok
        have hne : vec.filterMap id ≠ [] := by
          intro hv
          exact absurd (hemp hv) (by omega)
        obtain ⟨hidx_lt, hidx_get, _, _⟩ := argmax_spec vec hne
        have hmiss1 : ∀ p ∈ (results ++ [(argmax vec, pv)]).map Prod.fst,
            p < (vec.set (argmax vec) none).length ∧
            (vec.set (argmax vec) none).get? p = some none := by
          intro p hp
          rw [List.map_append, List.map_cons, List.map_nil, List.mem_append] at hp
          rcases hp with hp | hp
          · obtain ⟨hplt, hpget⟩ := hmiss p hp
            have hpne : p ≠ argmax vec := by
              intro hpe
              rw [hpe, hidx_get] at hpget
              simp at hpget
            refine ⟨by rw [List.length_set]; exact hplt, ?_⟩
            rw [List.get?_set_ne none vec (Ne.symm hpne) , hpget]
          · have hpe : p = argmax vec := by simpa using hp
            refine ⟨by rw [List.length_set, hpe]; exact hidx_lt, ?_⟩
            rw [hpe, List.get?_eq_getElem?, List.getElem?_set_self hidx_lt]
        have hnd1 : ((results ++ [(argmax vec, pv)]).map Prod.fst).Nodup := by
          rw [List.map_append, List.map_cons, List.map_nil, List.nodup_append]
          refine ⟨hnd, List.nodup_singleton _, ?_⟩
          intro a ha hb
          have hae : a = argmax vec := by simpa using hb
          obtain ⟨_, hget⟩ := hmiss a ha
          rw [hae, hidx_get] at hget
          simp at hget
        by_cases hrem : removed + 1 < m
        · rw [if_pos hrem] at hok
          cases hmp : multinomial_pvalue (sample (removed + 1)) (vec.set (argmax vec) none) 2000 with
          | error e =>
            simp only [hmp] at hok
            exact absurd hok (by simp)
          | ok pv1 =>
            simp only [hmp] at hok
            have hemp1 : (vec.set (argmax vec) none).filterMap id = [] → m ≤ removed + 1 :=
              fun hv => absurd hv (multinomial_pvalue_ok_nonempty hmp)
            obtain ⟨hnd2, hlen2⟩ := ih _ _ _ _ _ hok hmiss1 hnd1 hemp1
            refine ⟨hnd2, ?_⟩
            rw [List.length_append, List.length_singleton] at hlen2
            omega
        · rw [if_neg hrem] at hok
          have hemp1 : (vec.set (argmax vec) none).filterMap id = [] → m ≤ removed + 1 :=
            fun _ => by omega
          obtain ⟨hnd2, hlen2⟩ := ih _ _ _ _ _ hok hmiss1 hnd1 hemp1
          refine ⟨hnd2, ?_⟩
          rw [List.length_append, List.length_singleton] at hlen2
          omega
      · rw [if_neg hcond] at hok
        injection hok with h
        subst h
        exact ⟨hnd, Nat.le_add_right _ _⟩

/-- C8: in every successful run of `outliers`, a removed position is never
selected again (the returned indices are pairwise distinct) and at most
`m = len(vec)` records are returned. -/
theorem outliers_distinct_indices (sample : ℕ → SampleOracle) (vec : List (Option ℝ))
    (alpha : ℝ) (trials : ℕ) (results : List (ℕ × ℝ))
    (h : outliers sample vec alpha trials = .ok results) :
    (results.map Prod.fst).Nodup ∧ results.length ≤ vec.length := by
  simp only [outliers] at h
  cases hmp : multinomial_pvalue (sample 0) vec trials with
  | error e =>
    simp only [hmp] at h
    exact absurd h (by simp)
  | ok pv =>
    simp only [hmp] at h
    have hemp : vec.filterMap id = [] → vec.length ≤ 0 :=
      fun hv => absurd hv (multinomial_pvalue_ok_nonempty hmp)
    obtain ⟨hnd, hlen⟩ := outliersLoop_nodup sample alpha vec.length
      (harmonic_number vec.length) vec.length vec 0 [] pv results h
      (by simp) (by simp) hemp
    refine ⟨hnd, ?_⟩
    simpa using hlen

/-! ### A fully evaluated run of `outliers` (used by the C1/C8 witnesses):
on `[1, 0]` with `alpha = 1/10000`, one trial whose first sample is
`[1, 1]` (entropy 1) and later samples `[0]`, the run removes index 0 with
p-value 0 and then stops. -/

lemma outliersLoop_step_true (sample : ℕ → SampleOracle) (alpha : ℝ) (m : ℕ) (c_m : ℝ)
    (fuel : ℕ) (vec : List (Option ℝ)) (removed : ℕ) (results : List (ℕ × ℝ)) (pv : ℝ)
    (hden : (m : ℝ) * c_m ≠ 0)
    (hcond : pv ≤ alpha * ((removed : ℝ) + 1) / ((m : ℝ) * c_m) ∧ removed < m)
    (hrem : removed + 1 < m) :
    outliersLoop sample alpha m c_m (fuel + 1) vec removed results pv =
      match multinomial_pvalue (sample (removed + 1)) (vec.set (argmax vec) none) 2000 with
      | .error e => .error e
      | .ok pv1 => outliersLoop sample alpha m c_m fuel (vec.set (argmax vec) none)
          (removed + 1) (results ++ [(argmax vec, pv)]) pv1 := by
  simp only [outliersLoop]
  rw [if_neg hden, if_pos hcond, if_pos hrem]

lemma outliersLoop_stop (sample : ℕ → SampleOracle) (alpha : ℝ) (m : ℕ) (c_m : ℝ)
    (fuel : ℕ) (vec : List (Option ℝ)) (removed : ℕ) (results : List (ℕ × ℝ)) (pv : ℝ)
    (hden : (m : ℝ) * c_m ≠ 0)
    (hcond : ¬(pv ≤ alpha * ((removed : ℝ) + 1) / ((m : ℝ) * c_m) ∧ removed < m)) :
    outliersLoop sample alpha m c_m (fuel + 1) vec removed results pv = .ok results := by
  simp only [outliersLoop]
  rw [if_neg hden, if_neg hcond]

lemma harmonic_number_two : harmonic_number 2 = 1 / 2 := by
  rw [harmonic_number, if_pos (by norm_num)]
  norm_num [List.range']

lemma ne10 : normalized_entropy [some (1 : ℝ), some 0] = .ok (some 0) := by
  have hs : nansum [some (1 : ℝ), some 0] = 1 := by simp [nansum]
  have hint : pyint (1 : ℝ) = 1 := by
    rw [show (1 : ℝ) = ((1 : ℕ) : ℝ) by norm_num, pyint_natCast]
    rfl
  rw [normalized_entropy, if_pos (by norm_num), if_neg (by norm_num), hs, hint,
    if_pos (by norm_num)]
  have h1 : pylog ((1 : ℝ) / 1) = 0 := by
    rw [pylog, if_neg (by norm_num)]
    norm_num
  have h0 : pylog ((0 : ℝ) / 1) = 0 := by
    rw [pylog, if_pos (by norm_num)]
  simp only [List.map_cons, List.map_nil, xform, Option.map_some', Int.cast_one, nanSum,
    List.foldl_cons, List.foldl_nil, h1, h0]
  norm_num

lemma ne11 : normalized_entropy [some (1 : ℝ), some 1] = .ok (some 1) := by
  have hs : nansum [some (1 : ℝ), some 1] = 2 := by
    simp [nansum]
    norm_num
  have hint : pyint (2 : ℝ) = 2 := by
    rw [show (2 : ℝ) = ((2 : ℕ) : ℝ) by norm_num, pyint_natCast]
    rfl
  have hL : Real.log 2 ≠ 0 := ne_of_gt (Real.log_pos (by norm_num))
  rw [normalized_entropy, if_pos (by norm_num), if_neg (by norm_num), hs, hint,
    if_pos (by norm_num)]
  have hhalf : pylog ((1 : ℝ) / 2) = -Real.log 2 := by
    rw [pylog, if_neg (by norm_num), show ((1 : ℝ) / 2) = 2⁻¹ by norm_num, Real.log_inv]
  simp only [List.map_cons, List.map_nil, xform, Option.map_some', nanSum,
    List.foldl_cons, List.foldl_nil, List.length_cons, List.length_nil]
  rw [show (((2 : ℤ) : ℝ)) = (2 : ℝ) by norm_num]
  rw [hhalf]
  rw [show ((0 : ℕ) + 1 + 1) = 2 from rfl]
  rw [show (((2 : ℕ) : ℝ)) = (2 : ℝ) by norm_num]
  rw [show (-(0 + 1 / 2 * -Real.log 2 + 1 / 2 * -Real.log 2)) = Real.log 2 by ring]
  rw [div_self hL]

lemma mp0 : multinomial_pvalue (sampleW 0) [some (1 : ℝ), some 0] 1 = .ok 0 := by
  have hfm : ([some (1 : ℝ), some 0].filterMap id) = [1, 0] := by simp
  have hcnt : countLEM (some 0) [[(1 : ℝ), 1]] = .ok 0 := by
    simp only [countLEM, List.map_cons, List.map_nil, ne11, countLEM_nil]
    rw [if_neg (by simp only [pyLE_some_some]; norm_num)]
  simp only [multinomial_pvalue, hfm, List.map_cons, List.map_nil, List.length_cons,
    List.length_nil, Nat.zero_add, ne10]
  rw [show sampleW 0 (nansum [some (1 : ℝ), some 0]) 2 1 = [[(1 : ℝ), 1]] from rfl]
  simp only [hcnt]
  norm_num

lemma mp1 : multinomial_pvalue (sampleW 1) [none, some (0 : ℝ)] 2000 = .ok (1 / 2000) := by
  have hfm : ([none, some (0 : ℝ)].filterMap id) = [0] := by simp
  have hcnt : countLEM (some 1) [[(0 : ℝ)]] = .ok 1 := by
    simp only [countLEM, List.map_cons, List.map_nil, normalized_entropy_singleton,
      countLEM_nil]
    rw [if_pos (by simp)]
  simp only [multinomial_pvalue, hfm, List.map_cons, List.map_nil, List.length_cons,
    List.length_nil, Nat.zero_add, normalized_entropy_singleton]
  rw [show sampleW 1 (nansum [none, some (0 : ℝ)]) 1 2000 = [[(0 : ℝ)]] from rfl]
  simp only [hcnt]
  norm_num

lemma argmaxW : argmax [some (1 : ℝ), some 0] = 0 := by
  have hfm : ([some (1 : ℝ), some 0].filterMap id) = [1, 0] := by simp
  have hmax : listMax [(1 : ℝ), 0] = 1 := by
    rw [listMax, List.foldl_cons, List.foldl_nil]
    norm_num
  rw [argmax, nanmax_eq _ (by simp), hfm, hmax]
  rw [findEqIdx, if_pos (by simp)]

lemma run_eval : outliers sampleW [some (1 : ℝ), some 0] (1 / 10000) 1 = .ok [(0, 0)] := by
  have hden : ((2 : ℕ) : ℝ) * harmonic_number 2 ≠ 0 := by
    rw [harmonic_number_two]
    norm_num
  have h1 : outliersLoop sampleW (1 / 10000) 2 (harmonic_number 2) 2
      [some (1 : ℝ), some 0] 0 [] 0 =
      outliersLoop sampleW (1 / 10000) 2 (harmonic_number 2) 1
        [none, some (0 : ℝ)] 1 [(0, 0)] (1 / 2000) := by
    have hstep := outliersLoop_step_true sampleW (1 / 10000) 2 (harmonic_number 2) 1
      [some (1 : ℝ), some 0] 0 [] 0 hden
      (by
        constructor
        · rw [harmonic_number_two]
          norm_num
        · norm_num)
      (by norm_num)
    rw [argmaxW] at hstep
    rw [show ([some (1 : ℝ), some 0].set 0 none) = [none, some (0 : ℝ)] from rfl] at hstep
    rw [mp1] at hstep
    exact hstep
  have h2 : outliersLoop sampleW (1 / 10000) 2 (harmonic_number 2) 1
      [none, some (0 : ℝ)] 1 [(0, 0)] (1 / 2000) = .ok [(0, 0)] := by
    have hstop := outliersLoop_stop sampleW (1 / 10000) 2 (harmonic_number 2) 0
      [none, some (0 : ℝ)] 1 [(0, 0)] (1 / 2000) hden
      (by
        intro hcon
        have ha := hcon.1
        rw [harmonic_number_two] at ha
        norm_num at ha)
    exact hstop
  simp only [outliers, mp0]
  exact h1.trans h2

/-- Witness for C1: the exhibited run returns `[(0, 0)]`, and its record
at position 0 satisfies the Benjamini-Yekutieli bound. -/
theorem outliers_fdr_threshold_witness :
    (([((0 : ℕ), (0 : ℝ))]).get ⟨0, by norm_num⟩).2 ≤
      (1 / 10000 : ℝ) * (((0 : ℕ) : ℝ) + 1) /
        (([some (1 : ℝ), some 0].length : ℝ) *
          harmonic_number [some (1 : ℝ), some 0].length) :=
  outliers_fdr_threshold sampleW [some (1 : ℝ), some 0] (1 / 10000) 1 [(0, 0)]
    run_eval 0 (by norm_num)

/-- Witness for C8: the exhibited run returns distinct indices and at most
`len(vec)` records. -/
theorem outliers_distinct_indices_witness :
    (([((0 : ℕ), (0 : ℝ))]).map Prod.fst).Nodup ∧
    ([((0 : ℕ), (0 : ℝ))]).length ≤ [some (1 : ℝ), some 0].length :=
  outliers_distinct_indices sampleW [some (1 : ℝ), some 0] (1 / 10000) 1 [(0, 0)] run_eval

/-! ### Numeric bounds for the harmonic-number branches -/

lemma log_hundred_lt_five : Real.log 100 < 5 := by
  have e5 : Real.exp 1 ^ 5 = Real.exp 5 := by exact_mod_cast Real.exp_one_pow 5
  have h1 : (100 : ℝ) < Real.exp 5 := by
    have h2 : (2.7182818283 : ℝ) ^ 5 < Real.exp 1 ^ 5 :=
      pow_lt_pow_left₀ Real.exp_one_gt_d9 (by norm_num) (by norm_num)
    nlinarith [h2, e5]
  exact (Real.log_lt_iff_lt_exp (by norm_num : (0 : ℝ) < 100)).mpr h1

lemma four_lt_log_hundred : (4 : ℝ) < Real.log 100 := by
  have e4 : Real.exp 1 ^ 4 = Real.exp 4 := by exact_mod_cast Real.exp_one_pow 4
  have h1 : Real.exp 4 < 100 := by
    have h2 : Real.exp 1 ^ 4 < (2.7182818286 : ℝ) ^ 4 :=
      pow_lt_pow_left₀ Real.exp_one_lt_d9 (le_of_lt (Real.exp_pos 1)) (by norm_num)
    nlinarith [h2, e4]
  exact (Real.lt_log_iff_exp_lt (by norm_num : (0 : ℝ) < 100)).mpr h1

lemma harmonic_99_eval : harmonic_number 99 =
    ((List.range' 2 98).map (fun d : ℕ => 1 / (d : ℝ))).sum := by
  simp [harmonic_number]

lemma harmonic_99_lt : harmonic_number 99 < 418 / 100 := by
  rw [harmonic_99_eval]
  norm_num [List.range', List.sum_cons]

lemma harmonic_99_nonneg : 0 ≤ harmonic_number 99 := by
  rw [harmonic_99_eval]
  apply List.sum_nonneg
  intro x hx
  simp only [List.mem_map] at hx
  obtain ⟨d, _, rfl⟩ := hx
  exact div_nonneg zero_le_one (Nat.cast_nonneg d)

lemma harmonic_100_eval : harmonic_number 100 =
    gammaConst + Real.log 100 + 0.5 / 100 - 1.0 / (12 * 100 ^ 2) + 1.0 / (120 * 100 ^ 4) := by
  norm_num [harmonic_number]

lemma harmonic_100_gt : 458 / 100 < harmonic_number 100 := by
  rw [harmonic_100_eval]
  have := four_lt_log_hundred
  rw [gammaConst]
  norm_num at this ⊢
  nlinarith [this]

lemma harmonic_100_lt : harmonic_number 100 < 6 := by
  rw [harmonic_100_eval]
  have := log_hundred_lt_five
  rw [gammaConst]
  norm_num at this ⊢
  nlinarith [this]

/-- C3: the two branches of `harmonic_number` do NOT agree near the
`n = 100` boundary: the function jumps by more than `2/5` between
`n = 99` (exact branch, which computes `H(n) - 1` since the sum starts at
`d = 2`) and `n = 100` (asymptotic branch, which approximates the full
`H(n)`), so the relative difference exceeds `1e-4` by orders of magnitude,
refuting the claimed continuity. -/
theorem harmonic_number_branch_jump :
    2 / 5 < harmonic_number 100 - harmonic_number 99 ∧
    (1 / 10000) * max |harmonic_number 99| |harmonic_number 100| <
      |harmonic_number 100 - harmonic_number 99| := by
  have h99u := harmonic_99_lt
  have h99l := harmonic_99_nonneg
  have h100l := harmonic_100_gt
  have h100u := harmonic_100_lt
  have hgap : 2 / 5 < harmonic_number 100 - harmonic_number 99 := by linarith
  refine ⟨hgap, ?_⟩
  have habs99 : |harmonic_number 99| < 6 := by
    rw [abs_of_nonneg h99l]; linarith
  have habs100 : |harmonic_number 100| < 6 := by
    rw [abs_of_nonneg (by linarith : (0:ℝ) ≤ harmonic_number 100)]; linarith
  have hmax : max |harmonic_number 99| |harmonic_number 100| < 6 := max_lt habs99 habs100
  have : |harmonic_number 100 - harmonic_number 99| = harmonic_number 100 - harmonic_number 99 := by
    rw [abs_of_nonneg (by linarith : (0:ℝ) ≤ harmonic_number 100 - harmonic_number 99)]
  rw [this]
  have hmaxnn : 0 ≤ max |harmonic_number 99| |harmonic_number 100| :=
    le_trans (abs_nonneg _) (le_max_left _ _)
  nlinarith [hmax, hgap, hmaxnn]

end LeakAnalysis
